import Mathlib

/-!
# Verification of the rpa-port-customs-scanner ingestion pipeline

A shallow embedding, in Lean 4, of the decision logic of the customs
document scanner: the content classifier (`detectCategory`), the
existence check (`fileExistsB`), the HS-code extractor (`parseHSCodes`),
the text extractor (`extractText`), the chapter-record writer
(`saveChapterData`), the redirect-following retriever (`downloadFile`,
modelled as the step relation `Downloads`), and the two per-candidate
ingestion loops (the manifest loop of `scanner.js.runScanner` and the
DOM-clicking loop of the v3 variant's `runScanner`).

JavaScript strings are modelled as Lean `String`/`List Char`
(code points; no input in the claims involves surrogate pairs, where
UTF-16 indexing could diverge).  `toLowerCase` is modelled on the
ASCII letters; it is the identity on the Hebrew letters appearing in
the keyword tables, as in JavaScript.  The effectful parts (store
queries, HTTP fetches, browser clicks) are passed in as explicit
outcome parameters, mirroring the `try`/`catch` structure of the code.
-/

/-! ## Character utilities -/

/-- `String.prototype.toLowerCase`, restricted to the alphabets used by
the keyword tables: lowers ASCII `A`–`Z`, identity elsewhere (in
particular on the Hebrew letters and on digits and punctuation). -/
def jsToLower (c : Char) : Char :=
  if 'A' ≤ c ∧ c ≤ 'Z' then Char.ofNat (c.toNat + 32) else c

/-- The JavaScript `\s` character class (also the set trimmed by
`String.prototype.trim`): ASCII whitespace, NBSP, the Unicode space
separators, the line separators and the BOM. -/
def isJsWs (c : Char) : Bool :=
  c == ' ' || c == '\t' || c == '\n' || c == '\r' ||
  c.toNat == 11 || c.toNat == 12 ||
  c.toNat == 0xa0 || c.toNat == 0x1680 ||
  (0x2000 ≤ c.toNat && c.toNat ≤ 0x200a) ||
  c.toNat == 0x2028 || c.toNat == 0x2029 || c.toNat == 0x202f ||
  c.toNat == 0x205f || c.toNat == 0x3000 || c.toNat == 0xfeff

/-- Whether `pat` occurs at the head of `l` (plain, case-sensitive). -/
def startsWithL (pat l : List Char) : Bool :=
  match pat, l with
  | [], _ => true
  | _ :: _, [] => false
  | p :: ps, c :: cs => (c == p) && startsWithL ps cs

/-- Whether `pat` (given in lower case) occurs at the head of `l`,
comparing case-insensitively, as the `i` flag of the source regexes. -/
def startsWithCI (pat l : List Char) : Bool :=
  match pat, l with
  | [], _ => true
  | _ :: _, [] => false
  | p :: ps, c :: cs => (jsToLower c == p) && startsWithCI ps cs

/-- `String.prototype.includes` on char lists: `pat` occurs somewhere
inside `l`. -/
def includesL (pat l : List Char) : Bool :=
  match l with
  | [] => startsWithL pat []
  | _ :: cs => startsWithL pat l || includesL pat cs

/-- `haystack.includes(needle)` on strings. -/
def strIncludes (haystack needle : String) : Bool :=
  includesL needle.toList haystack.toList

/-! ## Content classifier

`detectCategory` of `src/scanner.js` lines 23–29: lower-case the file
name, then an ordered substring table — supplement markers first, then
procedure markers, then agreement markers, default `tariff`. -/

/-- `detectCategory(fileName)` (src/scanner.js:23-29). -/
def detectCategory (fileName : String) : String :=
  let name : String := ⟨fileName.toList.map jsToLower⟩
  if strIncludes name "תוספת" || strIncludes name "supplement" || strIncludes name "wto" then
    "supplement"
  else if strIncludes name "נוהל" || strIncludes name "פקודה" then
    "procedure"
  else if strIncludes name "הסכם" || strIncludes name "agreement" then
    "agreement"
  else
    "tariff"

/-! ## Existence check

`fileExists` (src/scanner.js:31-39 and the same function in the other
variants) queries the `files` collection for records whose `name`
equals the file name, returns `!snapshot.empty`, and returns `false`
from its `catch` on any store error.  The store outcome is passed in
as an `Except`: `.error` is a thrown store error, `.ok docs` the list
of matching records. -/

/-- `fileExists(fileName)` as a function of the store outcome. -/
def fileExistsB (resp : Except String (List String)) : Bool :=
  match resp with
  | .error _ => false
  | .ok docs => !docs.isEmpty

/-! ## HS-code extractor

`parseHSCodes` (src/scanner.js:367-384): the global regex
`/(\d{10})\/?\d?/g` collects matches over the raw markup; each match is
then stripped of a trailing `/digit` (`replace(/\/\d$/, '')`), kept
only when exactly 10 characters remain, and deduplicated through a
plain object (`seen`), whose `Object.keys` are returned.  JavaScript
orders the keys of a plain object: canonical array-index keys first in
ascending numeric order, then the remaining keys in insertion order —
`jsObjectKeys` reproduces that. -/

/-- One attempt of `/\d{10}\/?\d?/` anchored at the head of `l`:
ten digits, then an optional `/`, then an optional digit; returns the
matched characters and the rest of the input. -/
def tryHS (l : List Char) : Option (List Char × List Char) :=
  if (l.take 10).length == 10 && (l.take 10).all Char.isDigit then
    match l.drop 10 with
    | '/' :: d :: rest =>
        if d.isDigit then some (l.take 10 ++ ['/', d], rest)
        else some (l.take 10 ++ ['/'], d :: rest)
    | ['/'] => some (l.take 10 ++ ['/'], [])
    | d :: rest =>
        if d.isDigit then some (l.take 10 ++ [d], rest)
        else some (l.take 10, d :: rest)
    | [] => some (l.take 10, [])
  else none

/-- The global scan of `html.match(hsPattern)`: try the pattern at every
position from left to right, resuming after each match.  The fuel is
the input length, which suffices because every match consumes at least
ten characters. -/
def scanHSAux : Nat → List Char → List (List Char)
  | 0, _ => []
  | _ + 1, [] => []
  | f + 1, c :: cs =>
    match tryHS (c :: cs) with
    | some (m, rest) => m :: scanHSAux f rest
    | none => scanHSAux f cs

/-- `code.replace(/\/\d$/, '')`: drop a trailing `/digit` pair. -/
def cleanHS (m : List Char) : List Char :=
  match m.reverse with
  | d :: '/' :: rest => if d.isDigit then rest.reverse else m
  | _ => m

/-- Membership test on char-list keys (the `!seen[clean]` lookup). -/
def memKey (x : List Char) : List (List Char) → Bool
  | [] => false
  | y :: ys => x == y || memKey x ys

/-- The `seen`-object accumulation: keep the first occurrence of each
cleaned, length-10 key, in insertion order. -/
def dedupKeys (seen : List (List Char)) : List (List Char) → List (List Char)
  | [] => []
  | m :: ms =>
    if memKey m seen then dedupKeys seen ms else m :: dedupKeys (m :: seen) ms

/-- Numeric value of a digit string. -/
def digitsVal (k : List Char) : Nat :=
  k.foldl (fun a c => a * 10 + (c.toNat - 48)) 0

/-- Whether a key is a canonical array index (all digits, no leading
zero unless it is `"0"`, value at most `2^32 - 2`) — such keys come
first in `Object.keys`, in ascending numeric order. -/
def isArrayIndex (k : List Char) : Bool :=
  !k.isEmpty && k.all Char.isDigit && (k == ['0'] || k.headD ' ' != '0') &&
    Nat.ble (digitsVal k) 4294967294

/-- Comparison of keys by numeric value, for the array-index ordering. -/
def keyLe (a b : List Char) : Prop := digitsVal a ≤ digitsVal b

instance : DecidableRel keyLe := fun _ _ => Nat.decLe _ _

instance : IsTotal (List Char) keyLe := ⟨fun _ _ => Nat.le_total _ _⟩

instance : IsTrans (List Char) keyLe := ⟨fun _ _ _ => Nat.le_trans⟩

/-- `Object.keys` ordering on a list of distinct keys: canonical
array-index keys sorted ascending, then the rest in insertion order. -/
def jsObjectKeys (ks : List (List Char)) : List (List Char) :=
  (ks.filter isArrayIndex).insertionSort keyLe ++ ks.filter (fun k => !isArrayIndex k)

/-- `parseHSCodes(html, chapterId)` (src/scanner.js:367-384).  The
`chapterId` argument is unused by the source function and omitted. -/
def parseHSCodes (html : String) : List String :=
  let ms := scanHSAux html.toList.length html.toList
  let kept := (ms.map cleanHS).filter (fun m => m.length == 10)
  (jsObjectKeys (dedupKeys [] kept)).map (fun l => (⟨l⟩ : String))

/-! ## Text extractor

`extractText` (src/scanner.js:387-396): four global replaces in order —
`/<script[^>]*>[\s\S]*?<\/script>/gi` with `''`,
`/<style[^>]*>[\s\S]*?<\/style>/gi` with `''`,
`/<[^>]+>/g` with `' '`, and `/\s+/g` with `' '` — then `trim()`.
No entity decoding of any kind appears in the source.

Each global replace is embedded as a left-to-right scanner that, at
every position, either consumes a match (emitting the replacement and
resuming after it, as the regex `lastIndex` does) or emits the current
character and moves one position right. -/

/-- Scan for the first occurrence of `pat` (case-insensitively), the
way the lazy `[\s\S]*?` finds the nearest closing tag; returns the
input after that occurrence. -/
def findCI (pat : List Char) : List Char → Option (List Char)
  | [] => none
  | c :: cs =>
    if startsWithCI pat (c :: cs) then some ((c :: cs).drop pat.length)
    else findCI pat cs

/-- One attempt of `<open[^>]*>[\s\S]*?close` (case-insensitive)
anchored at the head of `l`: the literal opening-tag prefix, anything
up to the first `>`, then the nearest closing tag; returns the input
after the whole match. -/
def tryBlock (opTag clTag l : List Char) : Option (List Char) :=
  if startsWithCI opTag l then
    match (l.drop opTag.length).dropWhile (fun c => c != '>') with
    | '>' :: r2 => findCI clTag r2
    | _ => none
  else none

/-- The global replace of a script/style block with the empty string:
consume matches, emit everything else.  Fuel `= length` suffices since
a match consumes at least the two tags. -/
def blockStripAux (opTag clTag : List Char) : Nat → List Char → List Char
  | 0, l => l
  | _ + 1, [] => []
  | f + 1, c :: cs =>
    match tryBlock opTag clTag (c :: cs) with
    | some rest => blockStripAux opTag clTag f rest
    | none => c :: blockStripAux opTag clTag f cs

/-- The opening-tag prefix `<script` of the script regex. -/
def scriptOpen : List Char := ['<', 's', 'c', 'r', 'i', 'p', 't']

/-- The closing tag `</script>` of the script regex. -/
def scriptClose : List Char := ['<', '/', 's', 'c', 'r', 'i', 'p', 't', '>']

/-- The opening-tag prefix `<style` of the style regex. -/
def styleOpen : List Char := ['<', 's', 't', 'y', 'l', 'e']

/-- The closing tag `</style>` of the style regex. -/
def styleClose : List Char := ['<', '/', 's', 't', 'y', 'l', 'e', '>']

/-- `clean.replace(/<script[^>]*>[\s\S]*?<\/script>/gi, '')`. -/
def scriptStripL (l : List Char) : List Char :=
  blockStripAux scriptOpen scriptClose l.length l

/-- `clean.replace(/<style[^>]*>[\s\S]*?<\/style>/gi, '')`. -/
def styleStripL (l : List Char) : List Char :=
  blockStripAux styleOpen styleClose l.length l

/-- The global replace of `/<[^>]+>/g` with `' '`, as a one-pass state
machine: `none` is plain scanning; `some acc` means a `<` has been
seen and `acc` holds, reversed, the non-`>` characters read since.  A
`>` with a non-empty body closes the tag (emit one space); a `>`
immediately after the `<` is the non-match `<>` (both emitted, as the
regex requires at least one body character); at the end of input an
open `<` and its body are emitted verbatim, since the regex cannot
close them (there is no later `>`). -/
def tagAux : List Char → Option (List Char) → List Char
  | [], none => []
  | [], some acc => '<' :: acc.reverse
  | c :: cs, none => if c = '<' then tagAux cs (some []) else c :: tagAux cs none
  | c :: cs, some acc =>
    if c = '>' then
      if acc.isEmpty then '<' :: '>' :: tagAux cs none
      else ' ' :: tagAux cs none
    else tagAux cs (some (c :: acc))

/-- `clean.replace(/<[^>]+>/g, ' ')`. -/
def tagStripL (l : List Char) : List Char := tagAux l none

/-- The global replace of `/\s+/g` with `' '`: the flag records whether
the previous character was part of a whitespace run already replaced. -/
def collapseAux : Bool → List Char → List Char
  | _, [] => []
  | inWs, c :: cs =>
    if isJsWs c then
      if inWs then collapseAux true cs else ' ' :: collapseAux true cs
    else c :: collapseAux false cs

/-- `clean.replace(/\s+/g, ' ')`. -/
def collapseWsL (l : List Char) : List Char := collapseAux false l

/-- `String.prototype.trim`: drop whitespace from both ends. -/
def trimWsL (l : List Char) : List Char :=
  ((l.dropWhile isJsWs).reverse.dropWhile isJsWs).reverse

/-- `extractText(html)` (src/scanner.js:387-396). -/
def extractText (html : String) : String :=
  ⟨trimWsL (collapseWsL (tagStripL (styleStripL (scriptStripL html.toList))))⟩

/-! ## Chapter records

`saveChapterData` (src/scanner.js:399-420) writes one document into the
`tariff_chapters` collection.  The embedding returns the record passed
to `setDoc`: the content truncated by `content.substring(0, 900000)`
(modelled as taking the first 900,000 characters), the `hsCodes` array
exactly as given (the source stores it untouched), and
`hsCodeCount = hsCodes.length`. -/

/-- `str.substring(0, n)`: the first `n` characters of the string. -/
def jsSubstringTo (s : String) (n : Nat) : String := ⟨s.toList.take n⟩

/-- The fields of the record `saveChapterData` writes (timestamps
omitted: they are store-generated). -/
structure ChapterRecord where
  docId : String
  chapterId : Nat
  chapterName : String
  source : String
  content : String
  hsCodes : List String
  hsCodeCount : Nat
  deriving Repr, DecidableEq

/-- `String(chapterId).padStart(2, '0')`. -/
def padStart2 (s : String) : String :=
  if s.length ≥ 2 then s else ⟨List.replicate (2 - s.length) '0' ++ s.toList⟩

/-- `saveChapterData(chapterId, chapterName, content, hsCodes, source)`
(src/scanner.js:399-420), as the record handed to the store. -/
def saveChapterData (chapterId : Nat) (chapterName content : String)
    (hsCodes : List String) (source : String) : ChapterRecord :=
  { docId := source ++ "_chapter_" ++ padStart2 (toString chapterId)
    chapterId := chapterId
    chapterName := chapterName
    source := source
    content := jsSubstringTo content 900000
    hsCodes := hsCodes
    hsCodeCount := hsCodes.length }

/-! ## Retrieval with redirects

`downloadFile` (src/unnamed/part_000:42-68) issues a GET; on status 301
or 302 it recurses on the `location` header with no hop limit, on 200
it resolves with the payload, and on any other status it rejects with
`'HTTP ' + statusCode`.  The unbounded recursion is embedded as an
evaluation relation over a network oracle `net` mapping each URL to its
response. -/

/-- An HTTP response as `downloadFile` consumes it. -/
structure HttpResp where
  status : Nat
  location : String
  body : List Nat
  deriving Repr, DecidableEq

/-- The evaluation relation of `downloadFile(url)` under the network
`net`: `Downloads net u r` holds when the recursion starting at `u`
terminates with outcome `r`. -/
inductive Downloads (net : String → HttpResp) : String → Except String (List Nat) → Prop
  | redir {u : String} {r : Except String (List Nat)} :
      ((net u).status = 301 ∨ (net u).status = 302) →
      Downloads net (net u).location r → Downloads net u r
  | success {u : String} : (net u).status = 200 →
      Downloads net u (.ok (net u).body)
  | httpErr {u : String} : (net u).status ≠ 200 → (net u).status ≠ 301 →
      (net u).status ≠ 302 →
      Downloads net u (.error ("HTTP " ++ toString (net u).status))

/-- A finite redirect chain: from `u`, each hop is a 301/302 whose
`location` is the next URL, ending at `f`. -/
def redirChain (net : String → HttpResp) : String → List String → String → Prop
  | u, [], f => u = f
  | u, v :: vs, f =>
    ((net u).status = 301 ∨ (net u).status = 302) ∧ (net u).location = v ∧
      redirChain net v vs f

/-! ## The manifest ingestion loop

`runScanner` of the manifest variant (src/scanner.js:833-898) walks the
fixed `KNOWN_PDF_SECTIONS` list; per candidate it checks `fileExists`,
then downloads (the axios `downloadFile` returns `null` on any error),
then uploads (`uploadToFirebase` returns the new record id or `null`).
Each step's outcome is a field of `ManEnv`. -/

/-- Per-candidate outcomes for the manifest loop. -/
structure ManEnv where
  existsResp : Except String (List String)
  download : Option (List Nat)
  uploadId : Option String

/-- What one manifest-loop iteration did: the three counter increments
and whether `downloadFile` was invoked. -/
structure ManRes where
  du : Nat
  ds : Nat
  df : Nat
  downloaded : Bool
  deriving Repr, DecidableEq

/-- One iteration of the manifest loop (src/scanner.js:843-877). -/
def manStep (e : ManEnv) : ManRes :=
  if fileExistsB e.existsResp then ⟨0, 1, 0, false⟩
  else
    match e.download with
    | none => ⟨0, 0, 1, true⟩
    | some _ =>
      match e.uploadId with
      | some _ => ⟨1, 0, 0, true⟩
      | none => ⟨0, 0, 1, true⟩

/-- The whole manifest run: counters summed over the candidate list. -/
def manRun (envs : List ManEnv) : Nat × Nat × Nat :=
  envs.foldr (fun e acc =>
    ((manStep e).du + acc.1, (manStep e).ds + acc.2.1, (manStep e).df + acc.2.2))
    (0, 0, 0)

/-! ## The DOM-clicking ingestion loop (v3 variant)

`runScanner` of src/unnamed/part_000 (lines 99–266) walks a fixed list
of element labels.  Per candidate it normalizes the label into a file
name, checks `fileExists`, clicks the element, and retrieves either the
last network-captured PDF URL or, failing that, scans the open tabs.  A
download below the 1001-byte threshold (`fileBuffer.length > 1000`
fails) is counted as `failed`.  The whole body after the click sits in
a `try` whose `catch` increments `failed` — including the final
navigation back to the origin page, which runs after the counters were
already incremented; `navErr` models that navigation throwing.  Inside
the tab scan, `await p.close()` (line 217) precedes `break` inside a
`try` whose `catch (e) {}` swallows a rejected close, in which case the
`break` is skipped and the scan continues over the remaining tabs;
`closeErr` models which tabs' `close()` rejects. -/

/-- `itemName.replace(/[^a-zA-Z0-9א-ת\s]/g, '')` keeps exactly these
characters. -/
def isNameKeep (c : Char) : Bool :=
  ('a' ≤ c && c ≤ 'z') || ('A' ≤ c && c ≤ 'Z') || ('0' ≤ c && c ≤ '9') ||
  (0x5d0 ≤ c.toNat && c.toNat ≤ 0x5ea) || isJsWs c

/-- `itemName.replace(/[^a-zA-Z0-9א-ת\s]/g, '').trim() + '.pdf'`
(src/unnamed/part_000:157). -/
def normalizeFileName (itemName : String) : String :=
  (⟨trimWsL (itemName.toList.filter isNameKeep)⟩ : String) ++ ".pdf"

/-- Per-candidate outcomes for the v3 loop: the store response for the
existence check, whether the click found its element, the last captured
PDF URL (`pdfUrls[pdfUrls.length - 1]`, `none` when the buffer stayed
empty), the downloader (`.error` is a rejected promise, `.ok n` a
buffer of `n` bytes), the upload outcome, the URLs of the open tabs
(for the fallback scan), which tabs' `close()` rejects, and whether the
final navigation back to the origin page throws. -/
structure Env3 where
  existsResp : Except String (List String)
  clickOk : Bool
  captured : Option String
  fetch : String → Except String Nat
  uploadOk : Bool
  tabs : List String
  closeErr : String → Bool
  navErr : Bool

/-- What one v3-loop iteration did: counter increments, the names of
the records uploaded to the store, and the URLs passed to
`downloadFile`. -/
structure StepRes where
  du : Nat
  ds : Nat
  df : Nat
  names : List String
  downloads : List String
  deriving Repr, DecidableEq

/-- The origin page the loop keeps returning to. -/
def linkReportsUrl : String :=
  "https://shaarolami-query.customs.mof.gov.il/CustomspilotWeb/he/CustomsBook/Home/LinkReports"

/-- Pointwise accumulation of step results. -/
def addRes (a b : StepRes) : StepRes :=
  ⟨a.du + b.du, a.ds + b.ds, a.df + b.df, a.names ++ b.names,
    a.downloads ++ b.downloads⟩

/-- The fallback scan over open tabs (src/unnamed/part_000:204-227):
skip the origin page and blank tabs; a download error is swallowed; a
tab whose buffer exceeds 1000 bytes is uploaded and `found` is set.
The scan then stops (`break`) only if `await p.close()` resolves: a
rejected close is swallowed by the inner `catch` before the `break` is
reached, and the scan continues over the remaining tabs, which can
count again for the same candidate.  Returns the increments plus
whether `found` was set. -/
def tabScan (fetch : String → Except String Nat) (uploadOk : Bool)
    (closeErr : String → Bool) (fileName : String) :
    List String → StepRes × Bool
  | [] => (⟨0, 0, 0, [], []⟩, false)
  | t :: ts =>
    if t == linkReportsUrl || t == "about:blank" then
      tabScan fetch uploadOk closeErr fileName ts
    else
      match fetch t with
      | .error _ =>
        let (r, fd) := tabScan fetch uploadOk closeErr fileName ts
        (⟨r.du, r.ds, r.df, r.names, t :: r.downloads⟩, fd)
      | .ok n =>
        if 1000 < n then
          let inc : StepRes :=
            if uploadOk then ⟨1, 0, 0, [fileName], [t]⟩
            else ⟨0, 0, 1, [], [t]⟩
          if closeErr t then
            let (r, _) := tabScan fetch uploadOk closeErr fileName ts
            (addRes inc r, true)
          else (inc, true)
        else
          let (r, fd) := tabScan fetch uploadOk closeErr fileName ts
          (⟨r.du, r.ds, r.df, r.names, t :: r.downloads⟩, fd)

/-- One iteration of the v3 loop (src/unnamed/part_000:156-243) on a
candidate whose normalized file name is `fileName`. -/
def step3 (fileName : String) (env : Env3) : StepRes :=
  if fileExistsB env.existsResp then ⟨0, 1, 0, [], []⟩
  else if !env.clickOk then ⟨0, 0, 1, [], []⟩
  else
    match env.captured with
    | some u =>
      match env.fetch u with
      | .error _ => ⟨0, 0, 1, [], [u]⟩
      | .ok n =>
        let base : StepRes :=
          if 1000 < n then
            if env.uploadOk then ⟨1, 0, 0, [fileName], [u]⟩ else ⟨0, 0, 1, [], [u]⟩
          else ⟨0, 0, 1, [], [u]⟩
        if env.navErr then ⟨base.du, base.ds, base.df + 1, base.names, base.downloads⟩
        else base
    | none =>
      let (r, fd) := tabScan env.fetch env.uploadOk env.closeErr fileName env.tabs
      let base : StepRes :=
        ⟨r.du, r.ds, r.df + (if fd then 0 else 1), r.names, r.downloads⟩
      if env.navErr then ⟨base.du, base.ds, base.df + 1, base.names, base.downloads⟩
      else base

/-- The whole v3 run over a candidate list, with per-candidate
outcomes given by `envOf`. -/
def runLoop3 : List String → (String → Env3) → StepRes
  | [], _ => ⟨0, 0, 0, [], []⟩
  | i :: is, envOf =>
    addRes (step3 (normalizeFileName i) (envOf i)) (runLoop3 is envOf)

/-! ## Concrete scenarios used by the claim checks -/

/-- The spec's minimum-payload scenario for the v3 loop: candidates
`"I"` and `"II"`, no prior store records, click succeeds, the response
interceptor captured one URL each, retrieval yields 2000 bytes for
`"I"` and 500 bytes for `"II"`, uploads succeed, no navigation error. -/
def envC2 : String → Env3 := fun item =>
  if item == "I" then
    ⟨.ok [], true, some "uI", fun _ => .ok 2000, true, [], fun _ => false, false⟩
  else
    ⟨.ok [], true, some "uII", fun _ => .ok 500, true, [], fun _ => false, false⟩

/-- A candidate whose retrieval and upload succeed but whose final
navigation back to the origin page throws. -/
def envNavErr : Env3 :=
  ⟨.ok [], true, some "u", fun _ => .ok 2000, true, [], fun _ => false, true⟩

/-- A network with three chained 302 redirects `a → b → c → d`
terminating in a 200 with a payload, and 404 everywhere else. -/
def netC8 : String → HttpResp := fun u =>
  if u == "a" then ⟨302, "b", []⟩
  else if u == "b" then ⟨302, "c", []⟩
  else if u == "c" then ⟨302, "d", []⟩
  else if u == "d" then ⟨200, "", [37, 80, 68, 70]⟩
  else ⟨404, "", []⟩

/-! ## Lemmas about the HS-code extractor -/

theorem memKey_iff (x : List Char) (l : List (List Char)) :
    memKey x l = true ↔ x ∈ l := by
  induction l with
  | nil => simp [memKey]
  | cons y ys ih => simp [memKey, ih, beq_iff_eq]

theorem dedupKeys_not_mem_seen (seen ms : List (List Char)) (x : List Char)
    (hx : x ∈ dedupKeys seen ms) : x ∉ seen := by
  induction ms generalizing seen with
  | nil => simp [dedupKeys] at hx
  | cons m ms ih =>
    by_cases h : memKey m seen = true
    · simp only [dedupKeys, if_pos h] at hx
      exact ih seen hx
    · simp only [dedupKeys, if_neg h] at hx
      rcases List.mem_cons.mp hx with rfl | hx'
      · exact fun hxs => h ((memKey_iff x seen).mpr hxs)
      · intro hxs
        exact ih (m :: seen) hx' (List.mem_cons_of_mem m hxs)

theorem dedupKeys_nodup (seen ms : List (List Char)) :
    (dedupKeys seen ms).Nodup := by
  induction ms generalizing seen with
  | nil => simp [dedupKeys]
  | cons m ms ih =>
    by_cases h : memKey m seen = true
    · simpa only [dedupKeys, if_pos h] using ih seen
    · simp only [dedupKeys, if_neg h]
      refine List.nodup_cons.mpr ⟨fun hmem => ?_, ih (m :: seen)⟩
      exact dedupKeys_not_mem_seen (m :: seen) ms m hmem (List.mem_cons_self m seen)

theorem dedupKeys_sub (seen ms : List (List Char)) (x : List Char)
    (hx : x ∈ dedupKeys seen ms) : x ∈ ms := by
  induction ms generalizing seen with
  | nil => simp [dedupKeys] at hx
  | cons m ms ih =>
    by_cases h : memKey m seen = true
    · simp only [dedupKeys, if_pos h] at hx
      exact List.mem_cons_of_mem m (ih seen hx)
    · simp only [dedupKeys, if_neg h] at hx
      rcases List.mem_cons.mp hx with rfl | hx'
      · exact List.mem_cons_self x ms
      · exact List.mem_cons_of_mem m (ih (m :: seen) hx')

theorem jsObjectKeys_perm (ks : List (List Char)) :
    List.Perm (jsObjectKeys ks) ks := by
  unfold jsObjectKeys
  exact ((List.perm_insertionSort keyLe _).append_right _).trans
    (List.filter_append_perm _ ks)

theorem cleanHS_of_digits (l : List Char) (h : l.all Char.isDigit = true) :
    cleanHS l = l := by
  unfold cleanHS
  split
  · next d rest heq =>
      exfalso
      have hm : '/' ∈ l.reverse := by
        rw [heq]; exact List.mem_cons_of_mem _ (List.mem_cons_self _ _)
      have := List.all_eq_true.mp h '/' (List.mem_reverse.mp hm)
      exact absurd this (by decide)
  · rfl

theorem cleanHS_len (m : List Char) :
    (cleanHS m).length = m.length ∨ (cleanHS m).length + 2 = m.length := by
  unfold cleanHS
  split
  · next d rest heq =>
      have h1 : m.length = rest.length + 2 := by
        rw [← List.length_reverse m, heq]; simp
      split
      · right; simp [h1]
      · left; rfl
  · left; rfl

theorem cleanHS_slash_digit (ds : List Char) (d : Char) (hd : d.isDigit = true) :
    cleanHS (ds ++ ['/', d]) = ds := by
  simp [cleanHS, hd]

theorem tryHS_shape {l m r : List Char} (h : tryHS l = some (m, r)) :
    (cleanHS m = l.take 10 ∧ (l.take 10).all Char.isDigit = true ∧
      (l.take 10).length = 10) ∨ (cleanHS m).length ≠ 10 := by
  unfold tryHS at h
  by_cases hc : ((l.take 10).length == 10 && (l.take 10).all Char.isDigit) = true
  case neg => rw [if_neg hc] at h; cases h
  case pos =>
    rw [if_pos hc] at h
    rw [Bool.and_eq_true] at hc
    obtain ⟨hlen, hdig⟩ := hc
    have hlen' : (l.take 10).length = 10 := beq_iff_eq.mp hlen
    split at h
    · next d rest heq =>
        split at h
        · next hd =>
            obtain ⟨rfl, rfl⟩ := Prod.mk.injEq .. ▸ Option.some.injEq .. ▸ h
            left
            exact ⟨cleanHS_slash_digit _ d hd, hdig, hlen'⟩
        · next hd =>
            obtain ⟨rfl, rfl⟩ := Prod.mk.injEq .. ▸ Option.some.injEq .. ▸ h
            right
            have hm : (l.take 10 ++ ['/']).length = 11 := by simp [hlen']
            rcases cleanHS_len (l.take 10 ++ ['/']) with h2 | h2 <;> omega
    · next heq =>
        obtain ⟨rfl, rfl⟩ := Prod.mk.injEq .. ▸ Option.some.injEq .. ▸ h
        right
        have hm : (l.take 10 ++ ['/']).length = 11 := by simp [hlen']
        rcases cleanHS_len (l.take 10 ++ ['/']) with h2 | h2 <;> omega
    · next d rest heq _ _ =>
        split at h
        · next hd =>
            obtain ⟨rfl, rfl⟩ := Prod.mk.injEq .. ▸ Option.some.injEq .. ▸ h
            right
            have hm : (l.take 10 ++ [d]).length = 11 := by simp [hlen']
            rcases cleanHS_len (l.take 10 ++ [d]) with h2 | h2 <;> omega
        · next hd =>
            obtain ⟨rfl, rfl⟩ := Prod.mk.injEq .. ▸ Option.some.injEq .. ▸ h
            left
            exact ⟨cleanHS_of_digits _ hdig, hdig, hlen'⟩
    · next =>
        obtain ⟨rfl, rfl⟩ := Prod.mk.injEq .. ▸ Option.some.injEq .. ▸ h
        left
        exact ⟨cleanHS_of_digits _ hdig, hdig, hlen'⟩

theorem scanHS_mem {f : Nat} {l m : List Char} (h : m ∈ scanHSAux f l) :
    ∃ l' r, tryHS l' = some (m, r) := by
  induction f generalizing l with
  | zero => simp [scanHSAux] at h
  | succ f ih =>
    cases l with
    | nil => simp [scanHSAux] at h
    | cons c cs =>
      rcases htry : tryHS (c :: cs) with _ | ⟨m', rest⟩
      · simp only [scanHSAux, htry] at h
        exact ih h
      · simp only [scanHSAux, htry] at h
        rcases List.mem_cons.mp h with rfl | h'
        · exact ⟨c :: cs, rest, htry⟩
        · exact ih h'

theorem parseHSCodes_mem {s c : String} (hc : c ∈ parseHSCodes s) :
    c.length = 10 ∧ c.toList.all Char.isDigit = true := by
  unfold parseHSCodes at hc
  obtain ⟨k, hk, rfl⟩ := List.mem_map.mp hc
  have hk1 : k ∈ dedupKeys []
      (((scanHSAux s.toList.length s.toList).map cleanHS).filter
        (fun m => m.length == 10)) := (jsObjectKeys_perm _).subset hk
  have hk2 := dedupKeys_sub _ _ _ hk1
  obtain ⟨hk3, hk4⟩ := List.mem_filter.mp hk2
  obtain ⟨m0, hm0, rfl⟩ := List.mem_map.mp hk3
  obtain ⟨l', r, htry⟩ := scanHS_mem hm0
  have hk4' : (cleanHS m0).length = 10 := beq_iff_eq.mp hk4
  rcases tryHS_shape htry with ⟨heq, hdig, hlen⟩ | hbad
  · constructor
    · show (cleanHS m0).length = 10
      exact hk4'
    · show (cleanHS m0).all Char.isDigit = true
      rw [heq]; exact hdig
  · exact absurd hk4' hbad

theorem parseHSCodes_nodup (s : String) : (parseHSCodes s).Nodup := by
  unfold parseHSCodes
  refine List.Nodup.map (fun a b hab => ?_) ?_
  · exact congrArg String.data hab
  · exact ((jsObjectKeys_perm _).nodup_iff).mpr (dedupKeys_nodup _ _)

/-! ## Lemmas about the text extractor

The key invariant: after the tag-stripping pass, no occurrence of `<`
can start a match of `<[^>]+>` again — each remaining `<` either has no
`>` anywhere after it, or is immediately followed by `>` (the non-match
`<>`).  `tagFreeB` states this; on a `tagFreeB` string all three
tag-oriented replaces are the identity, which, with the idempotence of
whitespace collapsing and trimming, gives the idempotence of
`extractText`. -/

/-- The head character is `>`. -/
def headIsGt : List Char → Bool
  | [] => false
  | c :: _ => c == '>'

/-- No `>` occurs in the list. -/
def noGt (l : List Char) : Bool := l.all (fun c => c != '>')

/-- No position of the list starts a match of `<[^>]+>`: every `<` is
followed by no `>` at all, or immediately by `>`. -/
def tagFreeB : List Char → Bool
  | [] => true
  | c :: cs => (c != '<' || noGt cs || headIsGt cs) && tagFreeB cs

/-- The head character, if any, is not whitespace. -/
def headNotWs : List Char → Bool
  | [] => true
  | c :: _ => !isJsWs c

/-- Every whitespace character is a single `' '` not followed by more
whitespace: the shape `/\s+/g → ' '` leaves behind. -/
def wsOk : List Char → Bool
  | [] => true
  | c :: cs => (!isJsWs c || (c == ' ' && headNotWs cs)) && wsOk cs

theorem jsToLower_eq_lt {c : Char} (h : jsToLower c = '<') : c = '<' := by
  unfold jsToLower at h
  split at h
  · next hc =>
    exfalso
    have h1 : 65 ≤ c.toNat := hc.1
    have h2 : c.toNat ≤ 90 := hc.2
    have h3 : (Char.ofNat (c.toNat + 32)).toNat = c.toNat + 32 := by
      unfold Char.ofNat
      rw [dif_pos]
      · rfl
      · exact Or.inl (by omega)
    have h4 := congrArg Char.toNat h
    rw [h3] at h4
    have h5 : ('<' : Char).toNat = 60 := by decide
    rw [h5] at h4
    omega
  · exact h

theorem noGt_tagFree {l : List Char} (h : noGt l = true) : tagFreeB l = true := by
  induction l with
  | nil => rfl
  | cons c cs ih =>
    rw [noGt, List.all_cons, Bool.and_eq_true] at h
    have hcs : noGt cs = true := h.2
    rw [tagFreeB, Bool.and_eq_true]
    exact ⟨by rw [hcs]; simp, ih hcs⟩

theorem tagFree_tail {c : Char} {cs : List Char}
    (h : tagFreeB (c :: cs) = true) : tagFreeB cs = true := by
  rw [tagFreeB, Bool.and_eq_true] at h
  exact h.2

theorem tagFree_head {c : Char} {cs : List Char}
    (h : tagFreeB (c :: cs) = true) :
    c ≠ '<' ∨ noGt cs = true ∨ headIsGt cs = true := by
  rw [tagFreeB, Bool.and_eq_true] at h
  have h1 := h.1
  simp only [Bool.or_eq_true] at h1
  rcases h1 with (h2 | h2) | h2
  · exact Or.inl (by simpa using h2)
  · exact Or.inr (Or.inl h2)
  · exact Or.inr (Or.inr h2)

theorem noGt_reverse {l : List Char} (h : noGt l = true) :
    noGt l.reverse = true := by
  unfold noGt at *
  rw [List.all_eq_true] at *
  intro c hc
  exact h c (List.mem_reverse.mp hc)

theorem noGt_cons_of {c : Char} {cs : List Char} (hc : c ≠ '>')
    (h : noGt cs = true) : noGt (c :: cs) = true := by
  unfold noGt at *
  rw [List.all_cons, h]
  simpa using hc

theorem tagAux_tagFree (cs : List Char) :
    tagFreeB (tagAux cs none) = true ∧
      ∀ acc, noGt acc = true → tagFreeB (tagAux cs (some acc)) = true := by
  induction cs with
  | nil =>
    refine ⟨rfl, fun acc hacc => ?_⟩
    show tagFreeB ('<' :: acc.reverse) = true
    rw [tagFreeB, Bool.and_eq_true]
    refine ⟨?_, noGt_tagFree (noGt_reverse hacc)⟩
    rw [noGt_reverse hacc]
    simp
  | cons c cs ih =>
    constructor
    · show tagFreeB (if c = '<' then tagAux cs (some []) else c :: tagAux cs none) = true
      by_cases hc : c = '<'
      · rw [if_pos hc]
        exact ih.2 [] rfl
      · rw [if_neg hc, tagFreeB, Bool.and_eq_true]
        refine ⟨?_, ih.1⟩
        have : (c != '<') = true := by simpa using hc
        rw [this]; simp
    · intro acc hacc
      show tagFreeB (if c = '>' then
          (if acc.isEmpty then '<' :: '>' :: tagAux cs none
           else ' ' :: tagAux cs none)
        else tagAux cs (some (c :: acc))) = true
      by_cases hc : c = '>'
      · rw [if_pos hc]
        by_cases hemp : acc.isEmpty
        · rw [if_pos hemp, tagFreeB, Bool.and_eq_true]
          refine ⟨by simp [headIsGt], ?_⟩
          rw [tagFreeB, Bool.and_eq_true]
          exact ⟨by simp, ih.1⟩
        · rw [if_neg hemp, tagFreeB, Bool.and_eq_true]
          exact ⟨by simp, ih.1⟩
      · rw [if_neg hc]
        exact ih.2 (c :: acc) (noGt_cons_of hc hacc)

theorem tagAux_pending {cs : List Char} (h : noGt cs = true) (acc : List Char) :
    tagAux cs (some acc) = '<' :: acc.reverse ++ cs := by
  induction cs generalizing acc with
  | nil => simp [tagAux]
  | cons c cs ih =>
    rw [noGt, List.all_cons, Bool.and_eq_true] at h
    have hc : c ≠ '>' := by simpa using h.1
    show (if c = '>' then _ else tagAux cs (some (c :: acc))) = _
    rw [if_neg hc, ih h.2 (c :: acc)]
    simp

theorem tagAux_id {cs : List Char} (h : tagFreeB cs = true) :
    tagAux cs none = cs := by
  induction cs with
  | nil => rfl
  | cons c cs ih =>
    have hcs := tagFree_tail h
    show (if c = '<' then tagAux cs (some []) else c :: tagAux cs none) = c :: cs
    by_cases hc : c = '<'
    · subst hc
      rw [if_pos rfl]
      rcases tagFree_head h with h1 | h1 | h1
      · exact absurd rfl h1
      · rw [tagAux_pending h1 []]
        rfl
      · cases cs with
        | nil => simp [headIsGt] at h1
        | cons c2 cs2 =>
          have hc2 : c2 = '>' := by simpa [headIsGt] using h1
          subst hc2
          have hx := ih hcs
          rw [show tagAux ('>' :: cs2) none =
                '>' :: tagAux cs2 none from by rw [tagAux]; simp] at hx
          have hx2 : tagAux cs2 none = cs2 := by
            exact List.cons.injEq .. ▸ hx |>.2
          rw [show tagAux ('>' :: cs2) (some []) =
                '<' :: '>' :: tagAux cs2 none from by rw [tagAux]; simp]
          rw [hx2]
    · rw [if_neg hc, ih hcs]

theorem tagFree_cons_of {c : Char} {cs : List Char}
    (hd : c ≠ '<' ∨ noGt cs = true ∨ headIsGt cs = true)
    (ht : tagFreeB cs = true) : tagFreeB (c :: cs) = true := by
  rw [tagFreeB, Bool.and_eq_true]
  refine ⟨?_, ht⟩
  rcases hd with h | h | h
  · have : (c != '<') = true := by simpa using h
    rw [this]; simp
  · rw [h]; simp
  · rw [h]; simp

theorem noGt_drop {l : List Char} (h : noGt l = true) (n : Nat) :
    noGt (l.drop n) = true := by
  unfold noGt at *
  rw [List.all_eq_true] at *
  intro c hc
  exact h c (List.mem_of_mem_drop hc)

theorem dropWhile_ne_gt {m : List Char} (h : noGt m = true) :
    m.dropWhile (fun c => c != '>') = [] := by
  induction m with
  | nil => rfl
  | cons c cs ih =>
    rw [noGt, List.all_cons, Bool.and_eq_true] at h
    rw [List.dropWhile_cons, if_pos h.1]
    exact ih h.2

theorem tryBlock_none_of_tagFree (o2 : Char) (ops clTag : List Char)
    (ho2 : o2 ≠ '>') {l : List Char} (hl : tagFreeB l = true) :
    tryBlock ('<' :: o2 :: ops) clTag l = none := by
  cases l with
  | nil => simp [tryBlock, startsWithCI]
  | cons c cs =>
    unfold tryBlock
    by_cases hsw : startsWithCI ('<' :: o2 :: ops) (c :: cs) = true
    · rw [startsWithCI, Bool.and_eq_true] at hsw
      have hc : c = '<' := jsToLower_eq_lt (by simpa using hsw.1)
      subst hc
      rcases tagFree_head hl with h1 | h1 | h1
      · exact absurd rfl h1
      · rw [if_pos (by rw [startsWithCI, Bool.and_eq_true]; exact ⟨by decide, hsw.2⟩)]
        have hng : noGt (cs.drop (ops.length + 1)) = true := noGt_drop h1 _
        have hdw : (('<' :: cs).drop (('<' :: o2 :: ops).length)).dropWhile
            (fun c => c != '>') = [] := by
          have hlen : ('<' :: o2 :: ops).length = ops.length + 2 := by simp
          rw [hlen]
          rw [show ('<' :: cs).drop (ops.length + 2) = cs.drop (ops.length + 1) from rfl]
          exact dropWhile_ne_gt hng
        rw [hdw]
      · cases cs with
        | nil => simp [headIsGt] at h1
        | cons c2 cs2 =>
          have hc2 : c2 = '>' := by simpa [headIsGt] using h1
          subst hc2
          exfalso
          have h2 := hsw.2
          rw [startsWithCI, Bool.and_eq_true] at h2
          have h3 : jsToLower '>' = o2 := by simpa using h2.1
          have h4 : jsToLower '>' = '>' := by decide
          exact ho2 (by rw [← h3, h4])
    · rw [if_neg hsw]

theorem blockStripAux_id (o2 : Char) (ops clTag : List Char) (ho2 : o2 ≠ '>') :
    ∀ (f : Nat) (l : List Char), tagFreeB l = true →
      blockStripAux ('<' :: o2 :: ops) clTag f l = l := by
  intro f
  induction f with
  | zero => intro l _; rfl
  | succ f ih =>
    intro l hl
    cases l with
    | nil => rfl
    | cons c cs =>
      show (match tryBlock ('<' :: o2 :: ops) clTag (c :: cs) with
        | some rest => blockStripAux ('<' :: o2 :: ops) clTag f rest
        | none => c :: blockStripAux ('<' :: o2 :: ops) clTag f cs) = c :: cs
      rw [tryBlock_none_of_tagFree o2 ops clTag ho2 hl]
      rw [ih cs (tagFree_tail hl)]

theorem scriptStrip_id {l : List Char} (h : tagFreeB l = true) :
    scriptStripL l = l :=
  blockStripAux_id 's' ['c', 'r', 'i', 'p', 't'] scriptClose (by decide) l.length l h

theorem styleStrip_id {l : List Char} (h : tagFreeB l = true) :
    styleStripL l = l :=
  blockStripAux_id 's' ['t', 'y', 'l', 'e'] styleClose (by decide) l.length l h

theorem collapseAux_false_cons (c : Char) (cs : List Char) :
    collapseAux false (c :: cs) =
      if isJsWs c then ' ' :: collapseAux true cs else c :: collapseAux false cs := rfl

theorem collapseAux_true_cons (c : Char) (cs : List Char) :
    collapseAux true (c :: cs) =
      if isJsWs c then collapseAux true cs else c :: collapseAux false cs := rfl

theorem collapse_true_headNotWs (l : List Char) :
    headNotWs (collapseAux true l) = true := by
  induction l with
  | nil => rfl
  | cons c cs ih =>
    rw [collapseAux_true_cons]
    by_cases hw : isJsWs c = true
    · rw [if_pos hw]; exact ih
    · rw [if_neg hw, headNotWs]
      simpa using hw

theorem wsOk_collapseAux (l : List Char) : ∀ b, wsOk (collapseAux b l) = true := by
  induction l with
  | nil => intro b; rfl
  | cons c cs ih =>
    intro b
    cases b
    · rw [collapseAux_false_cons]
      by_cases hw : isJsWs c = true
      · rw [if_pos hw, wsOk, Bool.and_eq_true]
        refine ⟨?_, ih true⟩
        rw [collapse_true_headNotWs cs]
        simp
      · rw [if_neg hw, wsOk, Bool.and_eq_true]
        refine ⟨?_, ih false⟩
        have : isJsWs c = false := by simpa using hw
        rw [this]; simp
    · rw [collapseAux_true_cons]
      by_cases hw : isJsWs c = true
      · rw [if_pos hw]; exact ih true
      · rw [if_neg hw, wsOk, Bool.and_eq_true]
        refine ⟨?_, ih false⟩
        have : isJsWs c = false := by simpa using hw
        rw [this]; simp

theorem collapse_id (l : List Char) (h : wsOk l = true) :
    collapseAux false l = l ∧
      (headNotWs l = true → collapseAux true l = l) := by
  induction l with
  | nil => exact ⟨rfl, fun _ => rfl⟩
  | cons c cs ih =>
    rw [wsOk, Bool.and_eq_true] at h
    obtain ⟨hc, hcs⟩ := h
    by_cases hw : isJsWs c = true
    · have hc' : (c == ' ' && headNotWs cs) = true := by
        rcases Bool.or_eq_true _ _ ▸ hc with h1 | h1
        · rw [hw] at h1; simp at h1
        · exact h1
      rw [Bool.and_eq_true] at hc'
      have hsp : c = ' ' := by simpa using hc'.1
      constructor
      · rw [collapseAux_false_cons, if_pos hw, (ih hcs).2 hc'.2, hsp]
      · intro hh
        rw [headNotWs, hw] at hh
        simp at hh
    · constructor
      · rw [collapseAux_false_cons, if_neg hw, (ih hcs).1]
      · intro _
        rw [collapseAux_true_cons, if_neg hw, (ih hcs).1]

theorem noGt_collapseAux {l : List Char} (h : noGt l = true) :
    ∀ b, noGt (collapseAux b l) = true := by
  induction l with
  | nil => intro b; rfl
  | cons c cs ih =>
    intro b
    rw [noGt, List.all_cons, Bool.and_eq_true] at h
    cases b
    · rw [collapseAux_false_cons]
      by_cases hw : isJsWs c = true
      · rw [if_pos hw, noGt, List.all_cons]
        rw [show ((' ' : Char) != '>') = true from by decide, Bool.true_and]
        exact ih h.2 true
      · rw [if_neg hw, noGt, List.all_cons, h.1, Bool.true_and]
        exact ih h.2 false
    · rw [collapseAux_true_cons]
      by_cases hw : isJsWs c = true
      · rw [if_pos hw]; exact ih h.2 true
      · rw [if_neg hw, noGt, List.all_cons, h.1, Bool.true_and]
        exact ih h.2 false

theorem tagFree_collapseAux {l : List Char} (h : tagFreeB l = true) :
    ∀ b, tagFreeB (collapseAux b l) = true := by
  induction l with
  | nil => intro b; rfl
  | cons c cs ih =>
    intro b
    have hcs := tagFree_tail h
    by_cases hw : isJsWs c = true
    · cases b
      · rw [collapseAux_false_cons, if_pos hw]
        refine tagFree_cons_of (Or.inl (by decide)) (ih hcs true)
      · rw [collapseAux_true_cons, if_pos hw]
        exact ih hcs true
    · have hout : ∀ bb, collapseAux bb (c :: cs) = c :: collapseAux false cs := by
        intro bb
        cases bb
        · rw [collapseAux_false_cons, if_neg hw]
        · rw [collapseAux_true_cons, if_neg hw]
      rw [hout b]
      refine tagFree_cons_of ?_ (ih hcs false)
      by_cases hlt : c = '<'
      · subst hlt
        rcases tagFree_head h with h1 | h1 | h1
        · exact absurd rfl h1
        · exact Or.inr (Or.inl (noGt_collapseAux h1 false))
        · cases cs with
          | nil => simp [headIsGt] at h1
          | cons c2 cs2 =>
            have hc2 : c2 = '>' := by simpa [headIsGt] using h1
            subst hc2
            refine Or.inr (Or.inr ?_)
            rw [collapseAux_false_cons, if_neg (by decide : ¬isJsWs '>' = true)]
            rfl
      · exact Or.inl hlt

theorem noGt_append_left {a b : List Char} (h : noGt (a ++ b) = true) :
    noGt a = true := by
  unfold noGt at *
  rw [List.all_append, Bool.and_eq_true] at h
  exact h.1

theorem tagFree_append_left {a b : List Char} (h : tagFreeB (a ++ b) = true) :
    tagFreeB a = true := by
  induction a with
  | nil => rfl
  | cons c a' ih =>
    rw [List.cons_append] at h
    refine tagFree_cons_of ?_ (ih (tagFree_tail h))
    rcases tagFree_head h with h1 | h1 | h1
    · exact Or.inl h1
    · exact Or.inr (Or.inl (noGt_append_left h1))
    · cases a' with
      | nil => exact Or.inr (Or.inl rfl)
      | cons d t =>
        rw [List.cons_append] at h1
        exact Or.inr (Or.inr h1)

theorem headNotWs_append_left {a b : List Char}
    (h : headNotWs (a ++ b) = true) : headNotWs a = true := by
  cases a with
  | nil => rfl
  | cons d t => exact h

theorem wsOk_append_left {a b : List Char} (h : wsOk (a ++ b) = true) :
    wsOk a = true := by
  induction a with
  | nil => rfl
  | cons c a' ih =>
    rw [List.cons_append, wsOk, Bool.and_eq_true] at h
    rw [wsOk, Bool.and_eq_true]
    refine ⟨?_, ih h.2⟩
    rcases Bool.or_eq_true _ _ ▸ h.1 with h1 | h1
    · rw [h1]; simp
    · rw [Bool.and_eq_true] at h1
      have := headNotWs_append_left h1.2
      rw [h1.1, this]
      simp

theorem tagFree_dropWhile (p : Char → Bool) {l : List Char}
    (h : tagFreeB l = true) : tagFreeB (l.dropWhile p) = true := by
  induction l with
  | nil => rfl
  | cons c cs ih =>
    rw [List.dropWhile_cons]
    by_cases hp : p c = true
    · rw [if_pos hp]; exact ih (tagFree_tail h)
    · rw [if_neg hp]; exact h

theorem wsOk_dropWhile (p : Char → Bool) {l : List Char}
    (h : wsOk l = true) : wsOk (l.dropWhile p) = true := by
  induction l with
  | nil => rfl
  | cons c cs ih =>
    rw [List.dropWhile_cons]
    by_cases hp : p c = true
    · rw [if_pos hp]
      exact ih (Bool.and_eq_true _ _ ▸ h).2
    · rw [if_neg hp]; exact h

theorem exists_prefix_dropWhile (p : Char → Bool) (l : List Char) :
    ∃ t, t ++ l.dropWhile p = l := by
  induction l with
  | nil => exact ⟨[], rfl⟩
  | cons c cs ih =>
    rw [List.dropWhile_cons]
    by_cases hp : p c = true
    · rw [if_pos hp]
      obtain ⟨t, ht⟩ := ih
      exact ⟨c :: t, by rw [List.cons_append, ht]⟩
    · rw [if_neg hp]
      exact ⟨[], rfl⟩

theorem headNotWs_dropWhile (l : List Char) :
    headNotWs (l.dropWhile isJsWs) = true := by
  induction l with
  | nil => rfl
  | cons c cs ih =>
    rw [List.dropWhile_cons]
    by_cases hw : isJsWs c = true
    · rw [if_pos hw]; exact ih
    · rw [if_neg hw, headNotWs]
      simpa using hw

theorem trim_decomp (l : List Char) :
    ∃ t, trimWsL l ++ t = l.dropWhile isJsWs := by
  obtain ⟨t, ht⟩ := exists_prefix_dropWhile isJsWs (l.dropWhile isJsWs).reverse
  refine ⟨t.reverse, ?_⟩
  have := congrArg List.reverse ht
  rw [List.reverse_append, List.reverse_reverse] at this
  exact this

theorem tagFree_trim {l : List Char} (h : tagFreeB l = true) :
    tagFreeB (trimWsL l) = true := by
  obtain ⟨t, ht⟩ := trim_decomp l
  have h1 : tagFreeB (l.dropWhile isJsWs) = true := tagFree_dropWhile _ h
  rw [← ht] at h1
  exact tagFree_append_left h1

theorem wsOk_trim {l : List Char} (h : wsOk l = true) :
    wsOk (trimWsL l) = true := by
  obtain ⟨t, ht⟩ := trim_decomp l
  have h1 : wsOk (l.dropWhile isJsWs) = true := wsOk_dropWhile _ h
  rw [← ht] at h1
  exact wsOk_append_left h1

theorem headNotWs_trim (l : List Char) : headNotWs (trimWsL l) = true := by
  obtain ⟨t, ht⟩ := trim_decomp l
  have h1 := headNotWs_dropWhile l
  rw [← ht] at h1
  exact headNotWs_append_left h1

theorem trim_reverse (l : List Char) :
    (trimWsL l).reverse = (l.dropWhile isJsWs).reverse.dropWhile isJsWs := by
  unfold trimWsL
  rw [List.reverse_reverse]

theorem headNotWs_trim_reverse (l : List Char) :
    headNotWs (trimWsL l).reverse = true := by
  rw [trim_reverse]
  exact headNotWs_dropWhile _

theorem dropWhile_ws_of_headNot {l : List Char} (h : headNotWs l = true) :
    l.dropWhile isJsWs = l := by
  cases l with
  | nil => rfl
  | cons c cs =>
    rw [List.dropWhile_cons, if_neg]
    rw [headNotWs] at h
    simp only [Bool.not_eq_true'] at h
    simp [h]

theorem trim_id {l : List Char} (h1 : headNotWs l = true)
    (h2 : headNotWs l.reverse = true) : trimWsL l = l := by
  unfold trimWsL
  rw [dropWhile_ws_of_headNot h1, dropWhile_ws_of_headNot h2, List.reverse_reverse]

theorem extractText_pipeline_id {l : List Char} (h1 : tagFreeB l = true)
    (h2 : wsOk l = true) (h3 : headNotWs l = true)
    (h4 : headNotWs l.reverse = true) :
    trimWsL (collapseWsL (tagStripL (styleStripL (scriptStripL l)))) = l := by
  rw [scriptStrip_id h1, styleStrip_id h1]
  rw [show tagStripL l = tagAux l none from rfl, tagAux_id h1]
  rw [show collapseWsL l = collapseAux false l from rfl, (collapse_id l h2).1]
  exact trim_id h3 h4

theorem extractText_output_clean (x : String) :
    tagFreeB (extractText x).toList = true ∧ wsOk (extractText x).toList = true ∧
      headNotWs (extractText x).toList = true ∧
      headNotWs (extractText x).toList.reverse = true := by
  have htf_z : tagFreeB (tagStripL (styleStripL (scriptStripL x.toList))) = true :=
    (tagAux_tagFree (styleStripL (scriptStripL x.toList))).1
  exact ⟨tagFree_trim (tagFree_collapseAux htf_z false),
    wsOk_trim (wsOk_collapseAux _ false), headNotWs_trim _,
    headNotWs_trim_reverse _⟩

/-! ## Lemmas about retrieval and the ingestion loops -/

theorem Downloads_det {net : String → HttpResp} {u : String}
    {r1 r2 : Except String (List Nat)} (h1 : Downloads net u r1)
    (h2 : Downloads net u r2) : r1 = r2 := by
  induction h1 generalizing r2 with
  | redir hst _ ih =>
    cases h2 with
    | redir hst2 hrec2 => exact ih hrec2
    | success hst2 => rcases hst with h | h <;> omega
    | httpErr h200 h301 h302 =>
      rcases hst with h | h
      · exact absurd h h301
      · exact absurd h h302
  | success hst =>
    cases h2 with
    | redir hst2 _ => rcases hst2 with h | h <;> omega
    | success hst2 => rfl
    | httpErr h200 _ _ => exact absurd hst h200
  | httpErr h200 h301 h302 =>
    cases h2 with
    | redir hst2 _ =>
      rcases hst2 with h | h
      · exact absurd h h301
      · exact absurd h h302
    | success hst2 => exact absurd hst2 h200
    | httpErr _ _ _ => rfl

theorem downloads_of_chain {net : String → HttpResp} :
    ∀ (vs : List String) (u f : String), redirChain net u vs f →
      (net f).status = 200 → Downloads net u (.ok (net f).body) := by
  intro vs
  induction vs with
  | nil =>
    intro u f hc h200
    have hu : u = f := hc
    subst hu
    exact Downloads.success h200
  | cons v vs ih =>
    intro u f hc h200
    obtain ⟨hst, hloc, hrest⟩ := hc
    exact Downloads.redir hst (by rw [hloc]; exact ih v f hrest h200)

theorem manStep_sum (e : ManEnv) :
    (manStep e).du + (manStep e).ds + (manStep e).df = 1 := by
  unfold manStep
  split
  · rfl
  · split
    · rfl
    · split <;> rfl

theorem manRun_cons (e : ManEnv) (es : List ManEnv) :
    manRun (e :: es) = ((manStep e).du + (manRun es).1,
      (manStep e).ds + (manRun es).2.1, (manStep e).df + (manRun es).2.2) := rfl

theorem manRun_sum (envs : List ManEnv) :
    (manRun envs).1 + (manRun envs).2.1 + (manRun envs).2.2 = envs.length := by
  induction envs with
  | nil => rfl
  | cons e es ih =>
    rw [manRun_cons]
    have := manStep_sum e
    simp only [List.length_cons]
    omega

theorem tabScan_sum (fetch : String → Except String Nat) (uploadOk : Bool)
    (fileName : String) (ts : List String) :
    (tabScan fetch uploadOk (fun _ => false) fileName ts).1.du +
        (tabScan fetch uploadOk (fun _ => false) fileName ts).1.ds +
        (tabScan fetch uploadOk (fun _ => false) fileName ts).1.df =
      (if (tabScan fetch uploadOk (fun _ => false) fileName ts).2 then 1 else 0) := by
  induction ts with
  | nil => rfl
  | cons t ts ih =>
    by_cases hskip : (t == linkReportsUrl || t == "about:blank") = true
    · simp only [tabScan, hskip, if_true]
      exact ih
    · rcases htb : tabScan fetch uploadOk (fun _ => false) fileName ts with ⟨r, fd⟩
      rw [htb] at ih
      rcases hf : fetch t with msg | n
      · simp only [tabScan, hskip, if_false, Bool.false_eq_true, hf, htb]
        simpa using ih
      · by_cases hn : 1000 < n
        · cases uploadOk <;>
            simp [tabScan, hskip, hf, hn, htb]
        · simp only [tabScan, hskip, if_false, Bool.false_eq_true, hf, hn, htb]
          simpa using ih

theorem step3_sum (fileName : String) (env : Env3) (h : env.navErr = false)
    (hce : env.closeErr = fun _ => false) :
    (step3 fileName env).du + (step3 fileName env).ds + (step3 fileName env).df = 1 := by
  rcases env with ⟨er, ck, cap, ftc, uo, tbs, ce, nav⟩
  have hnav : nav = false := h
  subst hnav
  have hce' : ce = fun _ => false := hce
  subst hce' 
  cases hfe : fileExistsB er
  · cases ck
    · simp [step3, hfe]
    · cases cap with
      | some u =>
        rcases hf : ftc u with msg | n
        · simp [step3, hfe, hf]
        · by_cases hn : 1000 < n
          · cases uo <;> simp [step3, hfe, hf, hn]
          · simp [step3, hfe, hf, hn]
      | none =>
        have hts := tabScan_sum ftc uo fileName tbs
        rcases htb : tabScan ftc uo (fun _ => false) fileName tbs with ⟨r, fd⟩
        rw [htb] at hts
        simp only [step3, hfe, htb, Bool.false_eq_true, if_false]
        cases fd <;> simp_all
  · simp [step3, hfe]

/-! ## The claims -/

/-- C1: a candidate whose normalized file name already has a matching
record in the store increments `skipped` by exactly one, triggers no
retrieval call, and the loop proceeds to the next candidate — in both
the DOM-clicking loop (`step3`) and the manifest loop (`manStep`). -/
theorem C1_existence_short_circuit :
    (∀ (fileName d : String) (ds : List String) (env : Env3),
      step3 fileName { env with existsResp := .ok (d :: ds) } =
        ⟨0, 1, 0, [], []⟩) ∧
    (∀ (d : String) (ds : List String) (dl : Option (List Nat))
      (up : Option String),
      manStep ⟨.ok (d :: ds), dl, up⟩ = ⟨0, 1, 0, false⟩) ∧
    (∀ (i : String) (is : List String) (envOf : String → Env3),
      runLoop3 (i :: is) envOf =
        addRes (step3 (normalizeFileName i) (envOf i)) (runLoop3 is envOf)) :=
  ⟨fun _ _ _ _ => rfl, fun _ _ _ _ => rfl, fun _ _ _ => rfl⟩

/-- C2 counterexample: in the spec's end-to-end scenario the run does
end with `uploaded = 1, skipped = 0, failed = 1`, but the one record
written is named `"I.pdf"` — the claimed name `"Section_I.pdf"` is
never written (that prefix exists only in the part_001 variant, whose
threshold is 5000 bytes). -/
theorem C2_min_payload_counterexample :
    (runLoop3 ["I", "II"] envC2).names = ["I.pdf"] ∧
      "Section_I.pdf" ∉ (runLoop3 ["I", "II"] envC2).names := by
  exact ⟨by decide, by decide⟩

/-- C2 amended: in the scenario the final counters are
`uploaded = 1, skipped = 0, failed = 1`, exactly one record is written
and it is named `"I.pdf"` (the normalized candidate name), after
exactly the two retrieval calls. -/
theorem C2_min_payload_amended :
    runLoop3 ["I", "II"] envC2 = ⟨1, 0, 1, ["I.pdf"], ["uI", "uII"]⟩ := by
  decide

/-- C3: the classifier's four spec vectors — supplement before
procedure before agreement before the `tariff` default, matched
case-insensitively on substrings. -/
theorem C3_classifier_vectors :
    detectCategory "תוספת שלישית WTO.pdf" = "supplement" ∧
      detectCategory "נוהל יבוא.pdf" = "procedure" ∧
      detectCategory "הסכם סחר.pdf" = "agreement" ∧
      detectCategory "Section_I.pdf" = "tariff" := by
  exact ⟨by decide, by decide, by decide, by decide⟩

/-- C4 counterexample: `parseHSCodes` does not recognize the
separator-grouped shape `dddd.dd.dd.dd` — on the spec's input the
result is only `{"9876543210"}`; `"1234567890"` is absent. -/
theorem C4_extract_codes_counterexample :
    parseHSCodes "1234.56.78.90 text 9876543210" = ["9876543210"] ∧
      "1234567890" ∉ parseHSCodes "1234.56.78.90 text 9876543210" := by
  exact ⟨by decide, by decide⟩

/-- C4 amended: the extractor recognizes only contiguous 10-digit runs
(with an optional `/digit` suffix stripped); on the spec's input it
yields exactly `{"9876543210"}`; the result is deduplicated even when a
code occurs twice, and every returned element is exactly 10 ASCII
digits. -/
theorem C4_extract_codes_amended :
    parseHSCodes "1234.56.78.90 text 9876543210" = ["9876543210"] ∧
      parseHSCodes "x 1234567890 y 1234567890 z" = ["1234567890"] ∧
      (∀ s : String, (parseHSCodes s).Nodup) ∧
      (∀ s c : String, c ∈ parseHSCodes s →
        c.length = 10 ∧ c.toList.all Char.isDigit = true) :=
  ⟨by decide, by decide, parseHSCodes_nodup, fun _ _ hc => parseHSCodes_mem hc⟩

/-- C4 witness: the amended theorem applied to the spec's input and the
code it returns. -/
theorem C4_extract_codes_witness :
    ("9876543210" : String).length = 10 ∧
      ("9876543210" : String).toList.all Char.isDigit = true :=
  C4_extract_codes_amended.2.2.2 "1234.56.78.90 text 9876543210" "9876543210"
    (by decide)

/-- C5 counterexample: `extractText` performs no entity decoding — the
entity text `&amp;` passes through verbatim instead of becoming `&`. -/
theorem C5_entity_decoding_counterexample :
    extractText "a &amp; b" = "a &amp; b" ∧
      extractText "a &amp; b" ≠ "a & b" ∧
      strIncludes (extractText "a &amp; b") "&amp;" = true := by
  exact ⟨by decide, by decide, by decide⟩

/-- C5 amended: `extractText` strips script and style blocks, strips
remaining tags, and collapses whitespace runs to single spaces with the
result trimmed; it decodes no HTML entities — named entities and
numeric character references pass through as text.  For every input the
output has no leading or trailing whitespace and every whitespace run
in it is a single space. -/
theorem C5_extract_text_amended :
    extractText "<script>x</script><style>y</style><b>a &amp;   b</b>" =
        "a &amp; b" ∧
      extractText " a &#65;  b " = "a &#65; b" ∧
      (∀ x : String, wsOk (extractText x).toList = true ∧
        headNotWs (extractText x).toList = true ∧
        headNotWs (extractText x).toList.reverse = true) :=
  ⟨by decide, by decide, fun x =>
    ⟨(extractText_output_clean x).2.1, (extractText_output_clean x).2.2.1,
      (extractText_output_clean x).2.2.2⟩⟩

/-- C6: `extractText` is idempotent on every input string. -/
theorem C6_extract_text_idempotent :
    ∀ x : String, extractText (extractText x) = extractText x := by
  intro x
  obtain ⟨h1, h2, h3, h4⟩ := extractText_output_clean x
  exact congrArg String.mk (extractText_pipeline_id h1 h2 h3 h4)

/-- C7: the existence check returns `false` on any store error instead
of propagating it, and a candidate whose check errored is processed
exactly as one whose name was not found — in particular the failure
alone never increments `failed`, in either loop. -/
theorem C7_existence_check_defaults_false :
    (∀ msg : String, fileExistsB (.error msg) = false) ∧
      (∀ (fileName msg : String) (env : Env3),
        step3 fileName { env with existsResp := .error msg } =
          step3 fileName { env with existsResp := .ok [] }) ∧
      (∀ (msg : String) (dl : Option (List Nat)) (up : Option String),
        manStep ⟨.error msg, dl, up⟩ = manStep ⟨.ok [], dl, up⟩) :=
  ⟨fun _ => rfl, fun _ _ _ => rfl, fun _ _ _ => rfl⟩

/-- C8: retrieval follows every finite 301/302 chain transparently and
recursively with no hop limit, returning the final 200 payload and
nothing else; any other non-200 status is a retrieval failure. -/
theorem C8_redirects_followed :
    (∀ (net : String → HttpResp) (u f : String) (vs : List String),
      redirChain net u vs f → (net f).status = 200 →
      Downloads net u (.ok (net f).body) ∧
        ∀ r, Downloads net u r → r = .ok (net f).body) ∧
    (∀ (net : String → HttpResp) (u : String),
      (net u).status ≠ 200 → (net u).status ≠ 301 → (net u).status ≠ 302 →
      Downloads net u (.error ("HTTP " ++ toString (net u).status))) := by
  constructor
  · intro net u f vs hc h200
    have hd := downloads_of_chain vs u f hc h200
    exact ⟨hd, fun r hr => Downloads_det hr hd⟩
  · intro net u h1 h2 h3
    exact Downloads.httpErr h1 h2 h3

/-- C8 witness: three chained 302s ending in a 200 yield the final
payload, and a 404 yields a retrieval failure. -/
theorem C8_redirects_witness :
    Downloads netC8 "a" (.ok (netC8 "d").body) ∧
      Downloads netC8 "nope" (.error ("HTTP " ++ toString (netC8 "nope").status)) :=
  ⟨(C8_redirects_followed.1 netC8 "a" "d" ["b", "c", "d"]
      (by exact ⟨Or.inr (by decide), by decide, Or.inr (by decide), by decide,
        Or.inr (by decide), by decide, rfl⟩) (by decide)).1,
    C8_redirects_followed.2 netC8 "nope" (by decide) (by decide) (by decide)⟩

/-- C9 counterexample: `saveChapterData` does not truncate the stored
`hsCodes` sequence to 1000 entries — with 1001 extracted codes the
stored sequence keeps all 1001. -/
theorem C9_truncation_counterexample :
    (saveChapterData 1 "n" "c" (List.replicate 1001 "0000000000")
        "import").hsCodes = List.replicate 1001 "0000000000" ∧
      (saveChapterData 1 "n" "c" (List.replicate 1001 "0000000000")
        "import").hsCodes ≠ (List.replicate 1001 "0000000000").take 1000 := by
  refine ⟨rfl, fun h => ?_⟩
  have hl := congrArg List.length h
  rw [show (saveChapterData 1 "n" "c" (List.replicate 1001 "0000000000")
      "import").hsCodes = List.replicate 1001 "0000000000" from rfl] at hl
  rw [List.length_take, List.length_replicate] at hl
  omega

/-- C9 amended: every saved chapter record stores the content truncated
to 900,000 characters, the `hsCodes` sequence exactly as extracted
(untruncated), and `hsCodeCount` equal to the length of that
sequence. -/
theorem C9_truncation_amended :
    ∀ (chapterId : Nat) (chapterName content : String)
      (hsCodes : List String) (source : String),
      (saveChapterData chapterId chapterName content hsCodes source).content =
          jsSubstringTo content 900000 ∧
        (saveChapterData chapterId chapterName content hsCodes source).hsCodes =
          hsCodes ∧
        (saveChapterData chapterId chapterName content hsCodes source).hsCodeCount =
          hsCodes.length :=
  fun _ _ _ _ _ => ⟨rfl, rfl, rfl⟩

/-- C10 counterexample: in the DOM-clicking loop a candidate whose
upload succeeds and whose final navigation back to the origin page then
throws increments both `uploaded` and `failed` — two increments for one
candidate. -/
theorem C10_counter_partition_counterexample :
    (step3 "X.pdf" envNavErr).du = 1 ∧ (step3 "X.pdf" envNavErr).df = 1 ∧
      (step3 "X.pdf" envNavErr).du + (step3 "X.pdf" envNavErr).ds +
        (step3 "X.pdf" envNavErr).df = 2 := by
  exact ⟨by decide, by decide, by decide⟩

/-- C10 amended: provided the post-candidate navigation step does not
throw and no tab close is rejected (a swallowed `p.close()` rejection
skips the `break` and lets the tab scan count further qualifying tabs
for the same candidate), every candidate of the DOM-clicking loop
increments exactly one of the three counters; in the manifest loop this
is unconditional, so `uploaded + skipped + failed` equals the number of
candidates processed. -/
theorem C10_counter_partition_amended :
    (∀ (fileName : String) (env : Env3),
      (step3 fileName { env with closeErr := fun _ => false, navErr := false }).du +
          (step3 fileName { env with closeErr := fun _ => false, navErr := false }).ds +
          (step3 fileName { env with closeErr := fun _ => false, navErr := false }).df
        = 1) ∧
    (∀ envs : List ManEnv,
      (manRun envs).1 + (manRun envs).2.1 + (manRun envs).2.2 = envs.length) :=
  ⟨fun fileName env =>
      step3_sum fileName { env with closeErr := fun _ => false, navErr := false }
        rfl rfl,
    manRun_sum⟩
